import Mathlib

/-!
Shallow embedding of the coverage tracking engine of `openapiCoverage`
(`src/CoverageModel.ts`, class `CoverageModel`), together with theorems about
its observable behaviour.

Modelling conventions:
* JS objects with string keys are modelled as association lists in insertion
  order (`getEntry` = property read, `setEntry` = property write: an existing
  key keeps its position, a fresh key is appended).  The only divergence from
  the JS iteration order is that JS enumerates array-index-like keys (such as
  the status keys `"200"`) numerically first; since the only enumeration of
  the model that reaches a claim (`generateCoverageRecords`) sorts its output
  by the full `(path, method, status)` key, this does not affect any observable
  statement proved below.
* The `RegExp` produced by `CoverageModel.pathToRegex` is modelled as the token
  list of its body.  The source builds the pattern `'^' + innerRegex + '$'` and
  uses `RegExp.test`; with both anchors present this is exactly a full-string
  match, which is what `tokensMatch` implements.  The only constructs that can
  occur in the body via the claims are literal characters, `.` and the
  wildcard `[\S]+` that placeholders are replaced with; `tokenize` maps any
  other character to a literal token.
* `new URL(...)` is external to the repository; `parseUrlPathname` models it
  (see its doc comment).
* Exceptions are modelled by `Option`: `none` means the call threw.
* File output (`writeCoverageToFile`) only reads the state and writes to disk;
  it does not change the ledger, so it has no representation in the state
  transition.
-/

/-- JS regular-expression whitespace class `\s` (ECMA-262 WhiteSpace plus
LineTerminator); the wildcard `[\S]+` matches the complement. -/
def jsIsWhitespace (c : Char) : Bool :=
  c == ' ' || c == '\t' || c == '\n' || c == '\r' || c == '\x0b' || c == '\x0c' ||
  c == '\u00A0' || c == '\u1680' ||
  (decide ('\u2000' ≤ c) && decide (c ≤ '\u200A')) ||
  c == '\u2028' || c == '\u2029' || c == '\u202F' || c == '\u205F' ||
  c == '\u3000' || c == '\uFEFF'

/-- Property read on a JS object modelled as an association list:
`m[k]`, `none` = `undefined`. -/
def getEntry {α : Type} : List (String × α) → String → Option α
  | [], _ => none
  | e :: rest, k => if e.1 == k then some e.2 else getEntry rest k

/-- Property write on a JS object modelled as an association list: `m[k] = v`.
An existing key keeps its position, a fresh key is appended. -/
def setEntry {α : Type} (m : List (String × α)) (k : String) (v : α) : List (String × α) :=
  match m with
  | [] => [(k, v)]
  | e :: rest => if e.1 == k then (k, v) :: rest else e :: setEntry rest k v

/-- Tokens of the regex body built by `pathToRegex`: a literal character, the
metacharacter `.` (any character except a line terminator), and the wildcard
`[\S]+` (one or more non-whitespace characters) substituted for placeholders. -/
inductive Tok : Type where
  | lit (c : Char)
  | dot
  | plusNonWS
deriving DecidableEq, Repr

/-- One left-to-right pass of `path.replace(/{[^}]+}/g, '[\\S]+')`: every
leftmost occurrence of `{`, followed by one or more non-`}` characters and a
`}`, is replaced by the five characters `[\S]+`.  The second component is
`some acc` while scanning the (reversed) interior of a potential placeholder
whose `{` has been consumed. -/
def replacePlaceholdersAux : List Char → Option (List Char) → List Char
  | [], none => []
  | [], some acc => '{' :: acc.reverse
  | c :: rest, none =>
    if c = '{' then replacePlaceholdersAux rest (some [])
    else c :: replacePlaceholdersAux rest none
  | c :: rest, some acc =>
    if c = '}' then
      match acc with
      | [] => '{' :: '}' :: replacePlaceholdersAux rest none
      | _ :: _ => '[' :: '\\' :: 'S' :: ']' :: '+' :: replacePlaceholdersAux rest none
    else replacePlaceholdersAux rest (some (c :: acc))

/-- The global regex replace `path.replace(/{[^}]+}/g, '[\\S]+')`. -/
def replacePlaceholders (l : List Char) : List Char :=
  replacePlaceholdersAux l none

/-- JS `String.prototype.replace` with a plain string pattern: replace the
first occurrence of `pat` (if any) by `rep`.  The source calls
`.replace('/\//g', '\/')`: the first argument is the *string* `"///g"` (not a
regex), and the replacement is `"/"` — a dead no-op on every realistic path. -/
def replaceFirstAux (pat rep : List Char) : List Char → List Char
  | [] => if pat = [] then rep else []
  | c :: rest =>
    if pat.isPrefixOf (c :: rest) then rep ++ (c :: rest).drop pat.length
    else c :: replaceFirstAux pat rep rest

/-- Reading of the regex body built by `pathToRegex` as tokens: the
five-character wildcard `[\S]+`, the metacharacter `.`, and literals. -/
def tokenize : List Char → List Tok
  | '[' :: '\\' :: 'S' :: ']' :: '+' :: rest => Tok.plusNonWS :: tokenize rest
  | '.' :: rest => Tok.dot :: tokenize rest
  | c :: rest => Tok.lit c :: tokenize rest
  | [] => []

/-- Full-string matching of a token list against a character list; this is
`RegExp.test` for the anchored pattern `^body$` that `pathToRegex` builds. -/
def tokensMatch : List Tok → List Char → Bool
  | [], [] => true
  | [], _ :: _ => false
  | _ :: _, [] => false
  | Tok.lit c :: ts, d :: ds => c == d && tokensMatch ts ds
  | Tok.dot :: ts, d :: ds =>
    !(d == '\n' || d == '\r' || d == '\u2028' || d == '\u2029') && tokensMatch ts ds
  | Tok.plusNonWS :: ts, d :: ds =>
    !jsIsWhitespace d && (tokensMatch ts ds || tokensMatch (Tok.plusNonWS :: ts) ds)

/-- `regex.test(s)` for a compiled template. -/
def regexTest (r : List Tok) (s : String) : Bool :=
  tokensMatch r s.data

/-- CoverageModel.pathToRegex: `new RegExp('^' + innerRegex + '$')` where
`innerRegex = path.replace(/{[^}]+}/g, '[\\S]+').replace('/\//g', '\/')`.
The result is the token list of the pattern body; the `^`/`$` anchors are the
full-string semantics of `regexTest`. -/
def pathToRegex (path : String) : List Tok :=
  tokenize (replaceFirstAux "///g".data "/".data (replacePlaceholders path.data))

/-- The value of a method key in the coverage object:
`{ responses: { [status]: count } }`. -/
structure MethodCoverage : Type where
  responses : List (String × Nat)
deriving DecidableEq, Repr

/-- State of a `CoverageModel` instance: the coverage ledger
`{ [path]: { [method]: { responses: { [status]: count } } } }` and the ordered
compiled template list `pathRegexList`.  (`specs`, the output options and the
debug flag do not influence the ledger and are omitted.) -/
structure CoverageModel : Type where
  coverage : List (String × List (String × MethodCoverage))
  pathRegexList : List (List Tok × String)
deriving DecidableEq, Repr

/-- The model with no registered specification. -/
def emptyModel : CoverageModel := ⟨[], []⟩

/-- A parsed OpenAPI document as consumed by `initializeCoverage`:
`paths` maps a path to its methods, each carrying the keys of its `responses`
object (the values of `responses` are never read). -/
structure OpenApiSpec : Type where
  paths : List (String × List (String × List String))
deriving Repr

/-- Body of the innermost loop of `initializeCoverage`:
`if (!this.coverage[path][method].responses[status]) { ... = 0 }`.
JS truthiness: both `undefined` and an existing count of `0` are falsy, so the
write happens in both cases (re-writing `0` over `0` is the identity on the
modelled map as well, since `setEntry` keeps the key's position). -/
def initStatus (resp : List (String × Nat)) (status : String) : List (String × Nat) :=
  if (getEntry resp status).getD 0 == 0 then setEntry resp status 0 else resp

/-- Body of the middle loop of `initializeCoverage` for one
`(method, statuses)` entry of the document. -/
def initMethod (pc : List (String × MethodCoverage)) (method : String)
    (statuses : List String) : List (String × MethodCoverage) :=
  let pc1 := if (getEntry pc method).isNone then setEntry pc method ⟨[]⟩ else pc
  let entry := (getEntry pc1 method).getD ⟨[]⟩
  setEntry pc1 method ⟨statuses.foldl initStatus entry.responses⟩

/-- Body of the outer loop of `initializeCoverage` for one `(path, methods)`
entry of the document: skip the reserved catch-all `/{proxy+}`, append the
compiled `(regex, path)` pair (the regex is compiled from the prefixed path,
the stored declared path is unprefixed), ensure the path's coverage object
exists, and run the method/status initialization into it. -/
def initPathEntry (cm : CoverageModel) (pre p : String)
    (methods : List (String × List String)) : CoverageModel :=
  if p == "/{proxy+}" then cm
  else
    let cm1 : CoverageModel :=
      { cm with pathRegexList := cm.pathRegexList ++ [(pathToRegex (pre ++ p), p)] }
    let cov :=
      if (getEntry cm1.coverage p).isNone then setEntry cm1.coverage p [] else cm1.coverage
    let pathCov := (getEntry cov p).getD []
    let pathCov := methods.foldl (fun pc me => initMethod pc me.1 me.2) pathCov
    { cm1 with coverage := setEntry cov p pathCov }

/-- CoverageModel.initializeCoverage, with `pre` the `options.pathPrefix`
(defaulted to `''` by the caller when absent). -/
def initializeCoverage (cm : CoverageModel) (spec : OpenApiSpec) (pre : String) :
    CoverageModel :=
  spec.paths.foldl (fun cm pe => initPathEntry cm pre pe.1 pe.2) cm

/-- CoverageModel.matchPath: first entry of `pathRegexList` (in registration
order) whose regex tests true against the normalized path; `none` = JS `null`. -/
def matchPath (cm : CoverageModel) (urlPath : String) : Option String :=
  (cm.pathRegexList.find? (fun e => regexTest e.1 urlPath)).map (·.2)

/-- Scheme validity for `parseUrlPathname`: one ASCII letter followed by
letters, digits, `+`, `-` or `.`. -/
def validScheme : List Char → Bool
  | [] => false
  | c :: rest => c.isAlpha && rest.all (fun d => d.isAlphanum || d == '+' || d == '-' || d == '.')

/-- Splits a character list at the first occurrence of `://`, returning the
part before it and the part after it. -/
def splitOnSchemeSep : List Char → Option (List Char × List Char)
  | [] => none
  | ':' :: '/' :: '/' :: rest => some ([], rest)
  | c :: rest => (splitOnSchemeSep rest).map (fun p => (c :: p.1, p.2))

/-- Longest prefix not containing any of the stop characters. -/
def takeUntil (stops : List Char) : List Char → List Char
  | [] => []
  | c :: rest => if c ∈ stops then [] else c :: takeUntil stops rest

/-- Modelled from the spec: the WHATWG `new URL(...)` constructor used by
`normalizePath` is a host facility, external to the repository.  Following
§4.4 — "parse the combined string as an absolute URL and extract only the path
component (query string and fragment discarded)" — we model an absolute URL as
`scheme://authority[/path][?query][#fragment]`: the authority is everything up
to the first `/`, `?` or `#`; the pathname runs from that `/` (inclusive) up to
the first `?` or `#`, and is `/` when absent.  `none` models a thrown
`TypeError` (no `://`, bad scheme, or empty authority). -/
def parseUrlPathname (s : String) : Option String :=
  match splitOnSchemeSep s.data with
  | none => none
  | some (scheme, rest) =>
    if validScheme scheme then
      let authority := takeUntil ['/', '?', '#'] rest
      if authority = [] then none
      else
        let after := rest.drop authority.length
        let pathname := takeUntil ['?', '#'] after
        some (String.mk (if pathname = [] then ['/'] else pathname))
    else none

/-- JS template-string interpolation of a possibly-undefined value, as in
`` `${baseURL}${path}` `` with `path` undefined. -/
def jsTemplateStr : Option String → String
  | some s => s
  | none => "undefined"

/-- CoverageModel.normalizePath.  `baseURL ? baseURL + path : path` (JS
truthiness: `undefined` and `''` are falsy); throws (`none`) when the
effective URL is falsy or `new URL` rejects it; otherwise the `pathname`. -/
def normalizePath (url? baseURL? : Option String) : Option String :=
  let effectiveURL? : Option String :=
    match baseURL? with
    | some b => if b == "" then url? else some (b ++ jsTemplateStr url?)
    | none => url?
  match effectiveURL? with
  | none => none
  | some u => if u == "" then none else parseUrlPathname u

/-- The fields of an observed response that `handleResponse` reads:
`response.config.method` (asserted non-null by the source via `method!`),
`response.config.url`, `response.config.baseURL` and `response.status`. -/
structure AxiosResponse : Type where
  method : String
  url : Option String
  baseURL : Option String
  status : Nat
deriving DecidableEq, Repr

/-- The guarded increment inside `handleResponse`: if the matched path, the
normalized method and the status string all resolve to an existing counter,
increment it by one; otherwise leave the state untouched.  (The outer guard
`this.coverage[matchedPath] && this.coverage[matchedPath][normalizedMethod]`
and the inner `responses[status] !== undefined` are the three lookups.) -/
def recordHit (cm : CoverageModel) (p m s : String) : CoverageModel :=
  match getEntry cm.coverage p with
  | none => cm
  | some pathCov =>
    match getEntry pathCov m with
    | none => cm
    | some mc =>
      match getEntry mc.responses s with
      | none => cm
      | some c =>
        { cm with
          coverage := setEntry cm.coverage p (setEntry pathCov m ⟨setEntry mc.responses s (c + 1)⟩) }

/-- JS `String.prototype.toLowerCase` as used on the observed method
(`method!.toLowerCase()`): character-wise lower-casing. -/
def jsToLowerCase (s : String) : String :=
  String.mk (s.data.map Char.toLower)

/-- CoverageModel.handleResponse as a state transition; `none` models the
promise rejection when `normalizePath` throws (which happens before any
mutation).  The trailing `writeCoverageToFile()` only reads the ledger.  The
`matchedPath &&` guard makes an empty-string matched path (JS falsy) skip the
increment. -/
def handleResponse (cm : CoverageModel) (r : AxiosResponse) : Option CoverageModel :=
  match normalizePath r.url r.baseURL with
  | none => none
  | some normalizedPath =>
    match matchPath cm normalizedPath with
    | some matchedPath =>
      if matchedPath == "" then some cm
      else some (recordHit cm matchedPath (jsToLowerCase r.method) (toString r.status))
    | none => some cm

/-- The fields of an `AxiosError` that `handleFailedResponse` reads: the
optional embedded response. -/
structure AxiosErrorModel : Type where
  response : Option AxiosResponse
deriving Repr

/-- CoverageModel.handleFailedResponse: delegate to `handleResponse` when the
error carries a response, else only `console.warn('not a axios response')`. -/
def handleFailedResponse (cm : CoverageModel) (e : AxiosErrorModel) : Option CoverageModel :=
  match e.response with
  | some r => handleResponse cm r
  | none => some cm

/-- Sequential handling of a list of observed responses (the engine processes
one notification fully before the next); `none` as soon as one throws. -/
def handleResponses (cm : CoverageModel) : List AxiosResponse → Option CoverageModel
  | [] => some cm
  | r :: rs =>
    match handleResponse cm r with
    | some cm' => handleResponses cm' rs
    | none => none

/-- One row of the report. -/
structure CoverageRecord : Type where
  path : String
  method : String
  status : String
  count : Nat
deriving DecidableEq, Repr

/-- The unsorted record list built by the nested loops of
`generateCoverageRecords` before `.sort(...)`. -/
def rawCoverageRecords (cm : CoverageModel) : List CoverageRecord :=
  cm.coverage.flatMap (fun pe =>
    pe.2.flatMap (fun me =>
      me.2.responses.map (fun se => ⟨pe.1, me.1, se.1, se.2⟩)))

/-- The comparator of `generateCoverageRecords` as a Boolean `≤`:
`a.path.localeCompare(b.path)` primarily, then method, then status.
`localeCompare` is host-locale dependent; it is modelled as code-point
lexicographic comparison, the "lexicographic" order named by the spec. -/
def recordLE (a b : CoverageRecord) : Bool :=
  if a.path != b.path then decide (a.path < b.path)
  else if a.method != b.method then decide (a.method < b.method)
  else decide (a.status ≤ b.status)

/-- CoverageModel.generateCoverageRecords: enumerate the ledger and sort by
path, then method, then status. -/
def generateCoverageRecords (cm : CoverageModel) : List CoverageRecord :=
  (rawCoverageRecords cm).mergeSort recordLE

/-- The key of a record, ignoring the count. -/
def recordKey (r : CoverageRecord) : String × String × String :=
  (r.path, r.method, r.status)

/-- The counter of a declared triple, `none` when absent. -/
def getCount (cm : CoverageModel) (p m s : String) : Option Nat :=
  match getEntry cm.coverage p with
  | none => none
  | some pc =>
    match getEntry pc m with
    | none => none
    | some mc => getEntry mc.responses s

/-- One operation of an engine run: a contract registration (with its
effective path prefix) or an observed success/failure notification. -/
inductive EngineOp : Type where
  | register (spec : OpenApiSpec) (pre : String)
  | observe (r : AxiosResponse)
  | observeFailure (e : AxiosErrorModel)

/-- Applying one operation to the state.  A thrown normalization error
propagates to the caller before any mutation, so the state survives it
unchanged. -/
def applyOp (cm : CoverageModel) : EngineOp → CoverageModel
  | EngineOp.register spec pre => initializeCoverage cm spec pre
  | EngineOp.observe r => (handleResponse cm r).getD cm
  | EngineOp.observeFailure e => (handleFailedResponse cm e).getD cm

/-- Applying a sequence of operations in order. -/
def applyOps (cm : CoverageModel) (ops : List EngineOp) : CoverageModel :=
  ops.foldl applyOp cm

/-- Unique status keys in one `responses` object. -/
@[reducible] def respNodup (resp : List (String × Nat)) : Prop :=
  (resp.map (·.1)).Nodup

/-- Unique method keys, each with unique status keys. -/
@[reducible] def pcNodup (pc : List (String × MethodCoverage)) : Prop :=
  (pc.map (·.1)).Nodup ∧ ∀ me ∈ pc, respNodup me.2.responses

/-- Unique path keys, each with a well-formed methods object. -/
@[reducible] def covNodup (cov : List (String × List (String × MethodCoverage))) : Prop :=
  (cov.map (·.1)).Nodup ∧ ∀ pe ∈ cov, pcNodup pe.2

/-- Well-formedness of the ledger as a JS object tree: unique keys at every
level (JS objects cannot hold a key twice, so every state reachable in the
source satisfies this); it makes "exactly one counter per declared triple"
precise. -/
@[reducible] def keysNodup (cm : CoverageModel) : Prop :=
  covNodup cm.coverage

/-- An observed call that normalizes and matches the declared triple
`(p, m, s)`: normalization succeeds, the matcher resolves the normalized path
to `p` (a JS-truthy string), the lower-cased method is `m` and the stringified
status is `s`.  Matching only reads `pathRegexList`, which `handleResponse`
never changes. -/
def callMatches (cm : CoverageModel) (r : AxiosResponse) (p m s : String) : Prop :=
  (∃ np, normalizePath r.url r.baseURL = some np ∧ matchPath cm np = some p) ∧
  p ≠ "" ∧ (jsToLowerCase r.method) = m ∧ toString r.status = s

/-- A `(path, method, status)` triple declared by a document. -/
def declaredTriple (spec : OpenApiSpec) (p m s : String) : Prop :=
  ∃ methods, (p, methods) ∈ spec.paths ∧ ∃ statuses, (m, statuses) ∈ methods ∧ s ∈ statuses

/-- Strict version of the report order: `recordLE` together with distinct
`(path, method, status)` keys. -/
def recordLT (a b : CoverageRecord) : Prop :=
  recordLE a b = true ∧ recordKey a ≠ recordKey b

/-- Counter lookup inside one path's coverage object (helper for the
initialization lemmas). -/
def getCountPC (pc : List (String × MethodCoverage)) (m s : String) : Option Nat :=
  match getEntry pc m with
  | none => none
  | some mc => getEntry mc.responses s

/-- Registration order fixture: `/users/{id}` declared before `/users/me`. -/
def cmUsers : CoverageModel :=
  initializeCoverage emptyModel
    ⟨[("/users/{id}", [("get", ["200"])]), ("/users/me", [("get", ["200"])])]⟩ ""

/-- Fixture with only the template `/users/{id}` registered. -/
def cmId : CoverageModel :=
  initializeCoverage emptyModel ⟨[("/users/{id}", [("get", ["200"])])]⟩ ""

/-- Fixture declaring `GET /v1/items -> {200}`. -/
def cmV1 : CoverageModel :=
  initializeCoverage emptyModel ⟨[("/v1/items", [("get", ["200"])])]⟩ ""

/-- An observed call with upper-case method, numeric status, query string and
fragment, and a base URL carrying scheme and host. -/
def respV1 : AxiosResponse :=
  ⟨"GET", some "/v1/items?page=2#top", some "https://api.example.com", 200⟩

/-- Fixture declaring `GET /items -> {200, 404}`. -/
def cmItems : CoverageModel :=
  initializeCoverage emptyModel ⟨[("/items", [("get", ["200", "404"])])]⟩ ""

/-- A successful `GET /items` observation with status `200`. -/
def respItems200 : AxiosResponse :=
  ⟨"get", some "https://api.example.com/items", none, 200⟩

/-- A failed `GET /items` observation whose error carries an embedded `404`
response. -/
def respItems404 : AxiosResponse :=
  ⟨"get", some "https://api.example.com/items", none, 404⟩

/-- An observed call on a path no template matches. -/
def respUnmatched : AxiosResponse :=
  ⟨"get", some "https://api.example.com/absent", none, 200⟩

/-- A document containing the reserved catch-all path besides a normal one. -/
def specProxy : OpenApiSpec :=
  ⟨[("/{proxy+}", [("any", ["200"])]), ("/items", [("get", ["200"])])]⟩

/-- Two contracts registered in one order... -/
def cmOrder1 : CoverageModel :=
  initializeCoverage (initializeCoverage emptyModel ⟨[("/a", [("get", ["200"])])]⟩ "")
    ⟨[("/b", [("get", ["200"])])]⟩ ""

/-- ... and in the other order: the sorted reports coincide. -/
def cmOrder2 : CoverageModel :=
  initializeCoverage (initializeCoverage emptyModel ⟨[("/b", [("get", ["200"])])]⟩ "")
    ⟨[("/a", [("get", ["200"])])]⟩ ""

/-! Association-list lemmas. -/

theorem getEntry_setEntry_self {α : Type} (m : List (String × α)) (k : String) (v : α) :
    getEntry (setEntry m k v) k = some v := by
  induction m with
  | nil => simp [setEntry, getEntry]
  | cons e rest ih =>
    by_cases h : e.1 = k
    · simp [setEntry, getEntry, h]
    · simp [setEntry, getEntry, h, ih]

theorem getEntry_setEntry_ne {α : Type} (m : List (String × α)) (k k' : String) (v : α)
    (h : k' ≠ k) : getEntry (setEntry m k v) k' = getEntry m k' := by
  have hkk : (k == k') = false := beq_eq_false_iff_ne.mpr (Ne.symm h)
  induction m with
  | nil => simp [setEntry, getEntry, hkk]
  | cons e rest ih =>
    by_cases he : e.1 = k
    · simp [setEntry, getEntry, he, hkk]
    · by_cases he' : e.1 = k'
      · simp [setEntry, getEntry, he, he', h]
      · simp [setEntry, getEntry, he, he', ih]

theorem mem_setEntry {α : Type} {m : List (String × α)} {k : String} {v : α} :
    ∀ e ∈ setEntry m k v, e = (k, v) ∨ e ∈ m := by
  induction m with
  | nil => simp [setEntry]
  | cons e0 rest ih =>
    intro e he
    by_cases h : e0.1 = k
    · simp [setEntry, h] at he
      rcases he with he | he
      · exact Or.inl (by simp [he])
      · exact Or.inr (List.mem_cons_of_mem _ he)
    · simp [setEntry, h] at he
      rcases he with he | he
      · exact Or.inr (by simp [he])
      · rcases ih e he with h1 | h1
        · exact Or.inl h1
        · exact Or.inr (List.mem_cons_of_mem _ h1)

theorem mem_keys_setEntry {α : Type} (m : List (String × α)) (k : String) (v : α) (a : String) :
    a ∈ (setEntry m k v).map (·.1) ↔ a = k ∨ a ∈ m.map (·.1) := by
  induction m with
  | nil => simp [setEntry]
  | cons e rest ih =>
    by_cases h : e.1 = k
    · simp [setEntry, h]
    · simp [setEntry, h, ih]
      tauto

theorem nodup_keys_setEntry {α : Type} (m : List (String × α)) (k : String) (v : α)
    (h : (m.map (·.1)).Nodup) : ((setEntry m k v).map (·.1)).Nodup := by
  induction m with
  | nil => simp [setEntry]
  | cons e rest ih =>
    rw [List.map_cons, List.nodup_cons] at h
    obtain ⟨h1, h2⟩ := h
    by_cases he : e.1 = k
    · have hset : setEntry (e :: rest) k v = (k, v) :: rest := by simp [setEntry, he]
      rw [hset, List.map_cons, List.nodup_cons]
      exact ⟨he ▸ h1, h2⟩
    · have hset : setEntry (e :: rest) k v = e :: setEntry rest k v := by simp [setEntry, he]
      rw [hset, List.map_cons, List.nodup_cons]
      refine ⟨?_, ih h2⟩
      intro hmem
      rcases (mem_keys_setEntry rest k v e.1).mp hmem with h3 | h3
      · exact he h3
      · exact h1 h3

theorem getEntry_eq_none_iff {α : Type} (m : List (String × α)) (k : String) :
    getEntry m k = none ↔ ∀ e ∈ m, e.1 ≠ k := by
  induction m with
  | nil => simp [getEntry]
  | cons e rest ih =>
    by_cases h : e.1 = k
    · simp [getEntry, h]
    · simp [getEntry, h, ih]

/-! Lemmas about `recordHit` and `handleResponse`. -/

theorem recordHit_pathRegexList (cm : CoverageModel) (p m s : String) :
    (recordHit cm p m s).pathRegexList = cm.pathRegexList := by
  unfold recordHit
  repeat' split
  all_goals rfl

theorem recordHit_eq_of_none {cm : CoverageModel} {p m s : String}
    (h : getCount cm p m s = none) : recordHit cm p m s = cm := by
  unfold getCount at h
  unfold recordHit
  cases hp : getEntry cm.coverage p with
  | none => rfl
  | some pc =>
    simp only [hp] at h ⊢
    cases hm : getEntry pc m with
    | none => rfl
    | some mc =>
      simp only [hm] at h ⊢
      cases hs : getEntry mc.responses s with
      | none => rfl
      | some c0 => simp [hs] at h

theorem getCount_recordHit_self {cm : CoverageModel} {p m s : String} {c : Nat}
    (h : getCount cm p m s = some c) :
    getCount (recordHit cm p m s) p m s = some (c + 1) := by
  unfold getCount at h ⊢
  unfold recordHit
  cases hp : getEntry cm.coverage p with
  | none => simp [hp] at h
  | some pc =>
    simp only [hp] at h ⊢
    cases hm : getEntry pc m with
    | none => simp [hm] at h
    | some mc =>
      simp only [hm] at h ⊢
      cases hs : getEntry mc.responses s with
      | none => simp [hs] at h
      | some c0 =>
        rw [hs] at h
        have hc : c0 = c := by simpa using h
        subst hc
        simp [getEntry_setEntry_self]

theorem getCount_recordHit_other {cm : CoverageModel} {p m s p' m' s' : String}
    (h : ¬ (p' = p ∧ m' = m ∧ s' = s)) :
    getCount (recordHit cm p m s) p' m' s' = getCount cm p' m' s' := by
  unfold getCount recordHit
  cases hp : getEntry cm.coverage p with
  | none => rfl
  | some pc =>
    simp only [hp]
    cases hm : getEntry pc m with
    | none => rfl
    | some mc =>
      simp only [hm]
      cases hs : getEntry mc.responses s with
      | none => rfl
      | some c0 =>
        simp only
        by_cases hpp : p' = p
        · subst hpp
          rw [getEntry_setEntry_self, hp]
          simp only
          by_cases hmm : m' = m
          · subst hmm
            rw [getEntry_setEntry_self, hm]
            simp only
            have hss : s' ≠ s := fun hss => h ⟨rfl, rfl, hss⟩
            rw [getEntry_setEntry_ne _ _ _ _ hss]
          · rw [getEntry_setEntry_ne _ _ _ _ hmm]
        · rw [getEntry_setEntry_ne _ _ _ _ hpp]

theorem handleResponse_matched {cm : CoverageModel} {r : AxiosResponse} {p m s : String}
    (h : callMatches cm r p m s) :
    handleResponse cm r = some (recordHit cm p m s) := by
  obtain ⟨⟨np, hnp, hmp⟩, hpne, hm, hs⟩ := h
  unfold handleResponse
  simp only [hnp, hmp]
  rw [if_neg (by simpa using hpne), hm, hs]

theorem handleResponse_pathRegexList {cm cm' : CoverageModel} {r : AxiosResponse}
    (h : handleResponse cm r = some cm') : cm'.pathRegexList = cm.pathRegexList := by
  unfold handleResponse at h
  cases hnp : normalizePath r.url r.baseURL with
  | none => simp [hnp] at h
  | some np =>
    simp only [hnp] at h
    cases hmp : matchPath cm np with
    | none =>
      simp only [hmp, Option.some.injEq] at h
      rw [← h]
    | some mp =>
      simp only [hmp] at h
      by_cases he : mp = ""
      · rw [if_pos (by simpa using he)] at h
        simp only [Option.some.injEq] at h
        rw [← h]
      · rw [if_neg (by simpa using he)] at h
        simp only [Option.some.injEq] at h
        rw [← h, recordHit_pathRegexList]

theorem callMatches_of_pathRegexList_eq {cm cm' : CoverageModel} {r : AxiosResponse}
    {p m s : String} (hl : cm'.pathRegexList = cm.pathRegexList)
    (h : callMatches cm r p m s) : callMatches cm' r p m s := by
  obtain ⟨⟨np, hnp, hmp⟩, hpne, hm, hs⟩ := h
  exact ⟨⟨np, hnp, by rw [matchPath, hl]; exact hmp⟩, hpne, hm, hs⟩

theorem handleResponse_unmatched {cm : CoverageModel} {r : AxiosResponse} {np : String}
    (hnp : normalizePath r.url r.baseURL = some np)
    (h : matchPath cm np = none ∨
      ∃ p, matchPath cm np = some p ∧
        (p = "" ∨ getCount cm p (jsToLowerCase r.method) (toString r.status) = none)) :
    handleResponse cm r = some cm := by
  unfold handleResponse
  simp only [hnp]
  rcases h with h | ⟨p, hmp, hcase⟩
  · simp [h]
  · simp only [hmp]
    rcases hcase with he | hn
    · rw [if_pos (by simpa using he)]
    · by_cases he : p = ""
      · rw [if_pos (by simpa using he)]
      · rw [if_neg (by simpa using he), recordHit_eq_of_none hn]

theorem handleResponses_counts {p m s : String} :
    ∀ (rs : List AxiosResponse) (cm : CoverageModel) (c : Nat),
      (∀ r ∈ rs, callMatches cm r p m s) → getCount cm p m s = some c →
      ∃ cm', handleResponses cm rs = some cm' ∧
        getCount cm' p m s = some (c + rs.length) ∧
        cm'.pathRegexList = cm.pathRegexList := by
  intro rs
  induction rs with
  | nil => intro cm c _ hc; exact ⟨cm, rfl, by simpa using hc, rfl⟩
  | cons r rs ih =>
    intro cm c hall hc
    have hr := hall r (List.mem_cons_self r rs)
    have hstep := handleResponse_matched hr
    have hreg : (recordHit cm p m s).pathRegexList = cm.pathRegexList :=
      recordHit_pathRegexList cm p m s
    have hc' : getCount (recordHit cm p m s) p m s = some (c + 1) :=
      getCount_recordHit_self hc
    have hall' : ∀ r' ∈ rs, callMatches (recordHit cm p m s) r' p m s := fun r' hr' =>
      callMatches_of_pathRegexList_eq hreg (hall r' (List.mem_cons_of_mem _ hr'))
    obtain ⟨cm', h1, h2, h3⟩ := ih (recordHit cm p m s) (c + 1) hall' hc'
    refine ⟨cm', ?_, ?_, ?_⟩
    · show handleResponses cm (r :: rs) = some cm'
      unfold handleResponses
      rw [hstep]
      exact h1
    · rw [h2]
      simp only [List.length_cons]
      congr 1
      omega
    · rw [h3, hreg]

/-- C1: for a declared `(path, method, status)` triple whose counter starts at
`0`, recording any sequence of successful observed calls that all normalize
and match that triple yields a counter value equal to the number of calls
(each call increments it by exactly 1); and recording an observed call whose
normalized path matches no declared template, or whose matched path is
JS-falsy, or whose method or status is undeclared for the matched path,
returns the state unchanged — in particular every counter is unchanged. -/
theorem C1_counter_exactness (cm : CoverageModel) (p m s : String)
    (rs : List AxiosResponse) (r' : AxiosResponse) (np' : String)
    (hmatch : ∀ r ∈ rs, callMatches cm r p m s)
    (h0 : getCount cm p m s = some 0)
    (hnp' : normalizePath r'.url r'.baseURL = some np')
    (hnm : matchPath cm np' = none ∨
      ∃ q, matchPath cm np' = some q ∧
        (q = "" ∨ getCount cm q (jsToLowerCase r'.method) (toString r'.status) = none)) :
    (∃ cm', handleResponses cm rs = some cm' ∧ getCount cm' p m s = some rs.length) ∧
    handleResponse cm r' = some cm := by
  constructor
  · obtain ⟨cm', h1, h2, _⟩ := handleResponses_counts rs cm 0 hmatch h0
    exact ⟨cm', h1, by simpa using h2⟩
  · exact handleResponse_unmatched hnp' hnm

/-- Witness for C1: with `GET /items -> {200, 404}` declared, two successful
`GET /items 200` calls produce a counter of exactly 2, and a call to an
unmatched path leaves the state unchanged. -/
theorem C1_counter_exactness_witness :
    (∃ cm', handleResponses cmItems [respItems200, respItems200] = some cm' ∧
      getCount cm' "/items" "get" "200" = some 2) ∧
    handleResponse cmItems respUnmatched = some cmItems := by
  have h := C1_counter_exactness cmItems "/items" "get" "200"
    [respItems200, respItems200] respUnmatched "/absent"
    (by
      intro r hr
      simp only [List.mem_cons, List.not_mem_nil, or_false] at hr
      rcases hr with h | h <;> subst h <;>
        exact ⟨⟨"/items", rfl, rfl⟩, by decide, by decide, by decide⟩)
    (by decide) rfl (Or.inl rfl)
  simpa using h

/-- C6: for every failure notification whose error descriptor carries no
embedded response, handling the failure returns the state unchanged and
raises no error; the condition is only surfaced as a console warning. -/
theorem C6_network_failure_ignored (cm : CoverageModel) (e : AxiosErrorModel)
    (h : e.response = none) : handleFailedResponse cm e = some cm := by
  unfold handleFailedResponse
  rw [h]

/-- Witness for C6 at a concrete state and a concrete response-less error. -/
theorem C6_network_failure_ignored_witness :
    handleFailedResponse cmItems ⟨none⟩ = some cmItems :=
  C6_network_failure_ignored cmItems ⟨none⟩ rfl

/-- C10: handling a failure notification whose error descriptor carries an
embedded response is the same state transition as handling that response as a
success (same normalization, matching, increment and optional file write); in
particular a declared error status (`404`) observed as an HTTP error is
counted. -/
theorem C10_failure_delegates (cm : CoverageModel) (e : AxiosErrorModel)
    (r : AxiosResponse) (h : e.response = some r) :
    handleFailedResponse cm e = handleResponse cm r ∧
    (∃ cm', handleFailedResponse cmItems ⟨some respItems404⟩ = some cm' ∧
      getCount cm' "/items" "get" "404" = some 1) := by
  constructor
  · unfold handleFailedResponse
    rw [h]
  · exact ⟨recordHit cmItems "/items" "get" "404", by decide, by decide⟩

/-- Witness for C10 at a concrete error with embedded `404` response. -/
theorem C10_failure_delegates_witness :
    handleFailedResponse cmItems ⟨some respItems404⟩ = handleResponse cmItems respItems404 :=
  (C10_failure_delegates cmItems ⟨some respItems404⟩ respItems404 rfl).1

/-- Decomposition of a successful `find?`: the found element splits the list,
satisfies the predicate, and everything before it fails the predicate. -/
theorem find?_some_decomp {α : Type} (q : α → Bool) :
    ∀ (l : List α) (b : α), l.find? q = some b →
      ∃ l1 l2, l = l1 ++ b :: l2 ∧ q b = true ∧ ∀ a ∈ l1, q a = false := by
  intro l
  induction l with
  | nil => intro b h; simp [List.find?] at h
  | cons a rest ih =>
    intro b h
    by_cases ha : q a
    · rw [List.find?_cons_of_pos _ ha] at h
      obtain rfl : a = b := by simpa using h
      exact ⟨[], rest, rfl, ha, by simp⟩
    · rw [List.find?_cons_of_neg _ (by simpa using ha)] at h
      obtain ⟨l1, l2, heq, hqb, hall⟩ := ih b h
      refine ⟨a :: l1, l2, by rw [heq]; rfl, hqb, ?_⟩
      intro x hx
      rcases List.mem_cons.mp hx with hxa | hxl
      · subst hxa
        simpa using ha
      · exact hall x hxl

/-- C3: path matching iterates the compiled entries in registration order and
returns the first declared path whose matcher fully matches the normalized
observed path, returning no-match exactly when none matches; with
`/users/{id}` registered before `/users/me`, the observed path `/users/me`
resolves to `/users/{id}`, not `/users/me`. -/
theorem C3_first_match_wins (cm : CoverageModel) (up : String) :
    (matchPath cm up = none ↔ ∀ e ∈ cm.pathRegexList, regexTest e.1 up = false) ∧
    (∀ p, matchPath cm up = some p →
      ∃ l1 e l2, cm.pathRegexList = l1 ++ e :: l2 ∧ e.2 = p ∧ regexTest e.1 up = true ∧
        ∀ e' ∈ l1, regexTest e'.1 up = false) ∧
    matchPath cmUsers "/users/me" = some "/users/{id}" := by
  refine ⟨?_, ?_, by decide⟩
  · unfold matchPath
    rw [Option.map_eq_none', List.find?_eq_none]
    constructor
    · intro h e he
      simpa using h e he
    · intro h e he
      simpa using h e he
  · intro p hp
    unfold matchPath at hp
    rw [Option.map_eq_some'] at hp
    obtain ⟨e, he, hep⟩ := hp
    obtain ⟨l1, l2, heq, hqb, hall⟩ := find?_some_decomp _ _ _ he
    exact ⟨l1, e, l2, heq, hep, hqb, hall⟩

/-- Witness for C3: the registration-order fixture resolves `/users/me` to the
first-registered template. -/
theorem C3_first_match_wins_witness :
    matchPath cmUsers "/users/me" = some "/users/{id}" :=
  (C3_first_match_wins cmUsers "/users/me").2.2

/-- Matching the empty token list succeeds exactly on the empty string. -/
theorem tokensMatch_nil (ds : List Char) : tokensMatch [] ds = ds.isEmpty := by
  cases ds <;> rfl

/-- A literal-token block consumes exactly its own characters. -/
theorem tokensMatch_lits_append (pre : List Char) (ts : List Tok) (ds : List Char) :
    tokensMatch (pre.map Tok.lit ++ ts) (pre ++ ds) = tokensMatch ts ds := by
  induction pre with
  | nil => rfl
  | cons c rest ih => simp [tokensMatch, ih]

/-- A final wildcard matches exactly the nonempty whitespace-free strings —
including strings containing `/`. -/
theorem tokensMatch_plusNonWS (ds : List Char) :
    tokensMatch [Tok.plusNonWS] ds =
      (!ds.isEmpty && ds.all (fun c => !jsIsWhitespace c)) := by
  induction ds with
  | nil => rfl
  | cons d rest ih =>
    rw [show tokensMatch [Tok.plusNonWS] (d :: rest) =
      (!jsIsWhitespace d && (tokensMatch [] rest || tokensMatch [Tok.plusNonWS] rest)) from rfl]
    rw [tokensMatch_nil, ih]
    cases rest with
    | nil => simp
    | cons d2 rest2 => simp [List.all_cons, Bool.and_assoc]

/-- Counterexample to C2 as stated: with `/users/{id}` registered, the
observed path `/users/42/sessions` — which has an extra segment after the
placeholder position — IS resolved to `/users/{id}`: the wildcard `[\S]+`
substituted for the placeholder also matches `/`. -/
theorem C2_counterexample :
    matchPath cmId "/users/42/sessions" = some "/users/{id}" := by decide

/-- C2 amended: the compiled template `/users/{id}` matches every observed
path obtained by substituting any nonempty whitespace-free string — including
strings containing further `/` separators — for the placeholder: `/users/42`,
`/users/abc-1` and also `/users/42/sessions` match, while `/users` (placeholder
unfilled) does not. -/
theorem C2_amended (seg : String) (hne : seg ≠ "")
    (hns : ∀ c ∈ seg.data, ¬ jsIsWhitespace c) :
    regexTest (pathToRegex "/users/{id}") ("/users/" ++ seg) = true ∧
    regexTest (pathToRegex "/users/{id}") "/users/42" = true ∧
    regexTest (pathToRegex "/users/{id}") "/users/abc-1" = true ∧
    regexTest (pathToRegex "/users/{id}") "/users/42/sessions" = true ∧
    regexTest (pathToRegex "/users/{id}") "/users" = false := by
  refine ⟨?_, by decide, by decide, by decide, by decide⟩
  have hreg : pathToRegex "/users/{id}" = "/users/".data.map Tok.lit ++ [Tok.plusNonWS] := by
    decide
  have hdata : ("/users/" ++ seg).data = "/users/".data ++ seg.data := String.data_append _ _
  rw [regexTest, hreg, hdata, tokensMatch_lits_append, tokensMatch_plusNonWS]
  have hd : seg.data ≠ [] := by
    intro h
    exact hne (String.ext (by simpa using h))
  have h1 : seg.data.isEmpty = false := by
    cases hsd : seg.data with
    | nil => exact absurd hsd hd
    | cons a l => rfl
  have h2 : seg.data.all (fun c => !jsIsWhitespace c) = true := by
    rw [List.all_eq_true]
    intro c hc
    simpa using hns c hc
  rw [h1, h2]
  rfl

/-- Witness for C2 amended: the segment position filled with `42/sessions`. -/
theorem C2_amended_witness :
    regexTest (pathToRegex "/users/{id}") ("/users/" ++ "42/sessions") = true :=
  (C2_amended "42/sessions" (by decide) (by decide)).1

/-- A character whose only regex reading is itself, as far as the patterns
built by `pathToRegex` are concerned. -/
def plainChar (c : Char) : Bool :=
  c.isAlphanum || c == '/' || c == '-' || c == '_'

theorem replacePlaceholdersAux_no_brace :
    ∀ l : List Char, '{' ∉ l → replacePlaceholdersAux l none = l := by
  intro l
  induction l with
  | nil => intro _; rfl
  | cons c rest ih =>
    intro h
    have hc : ¬ c = '{' := fun hh => h (hh ▸ List.mem_cons_self c rest)
    have hr : '{' ∉ rest := fun hm => h (List.mem_cons_of_mem c hm)
    simp [replacePlaceholdersAux, hc, ih hr]

theorem replaceFirstAux_not_infix (pat rep : List Char) (hpat : pat ≠ []) :
    ∀ l : List Char, ¬ List.IsInfix pat l → replaceFirstAux pat rep l = l := by
  intro l
  induction l with
  | nil => intro _; simp [replaceFirstAux, hpat]
  | cons c rest ih =>
    intro h
    have hpre : pat.isPrefixOf (c :: rest) = false := by
      rw [Bool.eq_false_iff]
      intro hp
      exact h (List.isPrefixOf_iff_prefix.mp hp).isInfix
    have hrest : ¬ List.IsInfix pat rest := fun hi =>
      h (hi.trans (List.suffix_cons c rest).isInfix)
    simp [replaceFirstAux, hpre, ih hrest]

theorem tokenize_cons_ne (c : Char) (rest : List Char) (h1 : c ≠ '[') (h2 : c ≠ '.') :
    tokenize (c :: rest) = Tok.lit c :: tokenize rest := by
  rw [tokenize.eq_def]
  split <;> simp_all

theorem tokenize_plain :
    ∀ l : List Char, (∀ c ∈ l, plainChar c = true) → tokenize l = l.map Tok.lit := by
  intro l
  induction l with
  | nil => intro _; rfl
  | cons c rest ih =>
    intro h
    have hc := h c (List.mem_cons_self c rest)
    have h1 : c ≠ '[' := by intro hh; subst hh; exact absurd hc (by decide)
    have h2 : c ≠ '.' := by intro hh; subst hh; exact absurd hc (by decide)
    rw [tokenize_cons_ne c rest h1 h2, ih (fun d hd => h d (List.mem_cons_of_mem c hd))]
    rfl

/-- A pure literal token list matches exactly its own character sequence. -/
theorem tokensMatch_lits (l : List Char) :
    ∀ ds, tokensMatch (l.map Tok.lit) ds = true ↔ ds = l := by
  induction l with
  | nil => intro ds; cases ds <;> simp [tokensMatch]
  | cons c rest ih =>
    intro ds
    cases ds with
    | nil => simp [tokensMatch]
    | cons d ds' =>
      simp only [List.map_cons, tokensMatch, Bool.and_eq_true, beq_iff_eq, ih,
        List.cons.injEq]
      constructor
      · rintro ⟨hq1, hq2⟩
        exact ⟨hq1.symm, hq2⟩
      · rintro ⟨hq1, hq2⟩
        exact ⟨hq1.symm, hq2⟩

/-- Counterexample to C9 as stated: the regex metacharacter `.` occurring in
the declared path `/a.b` is NOT matched literally — the compiled matcher
accepts the observed path `/axb`. -/
theorem C9_counterexample : regexTest (pathToRegex "/a.b") "/axb" = true := by decide

/-- C9 amended: template compilation copies every non-placeholder character
verbatim into the regex, so regex metacharacters keep their regex meaning
(e.g. `.` matches any character) instead of being escaped; for templates built
from characters with no regex meaning (letters, digits, `/`, `-`, `_`, and not
containing the dead-replace pattern `///g`), matching is literal and anchored
at both ends: an observed path matches if and only if it equals the template —
a full-string match, never a substring match. -/
theorem C9_amended (t s : String)
    (hplain : ∀ c ∈ t.data, plainChar c = true)
    (hng : ¬ List.IsInfix "///g".data t.data) :
    regexTest (pathToRegex t) s = true ↔ s = t := by
  have hnb : '{' ∉ t.data := by
    intro hm
    exact absurd (hplain _ hm) (by decide)
  have h1 : replacePlaceholders t.data = t.data :=
    replacePlaceholdersAux_no_brace t.data hnb
  have h2 : replaceFirstAux "///g".data "/".data t.data = t.data :=
    replaceFirstAux_not_infix _ _ (by decide) t.data hng
  have h3 : pathToRegex t = t.data.map Tok.lit := by
    unfold pathToRegex replacePlaceholders
    unfold replacePlaceholders at h1
    rw [h1, h2, tokenize_plain t.data hplain]
  rw [regexTest, h3, tokensMatch_lits]
  constructor
  · intro h
    exact String.ext h
  · intro h
    rw [h]

/-- Witness for C9 amended, applied to the metacharacter-free template
`/users`: it matches itself and (by the iff) nothing else. -/
theorem C9_amended_witness :
    regexTest (pathToRegex "/users") "/users" = true :=
  (C9_amended "/users" "/users" (by decide) (by decide)).mpr rfl

/-! Lemmas for the reserved catch-all path. -/

theorem initPathEntry_pathRegexList (cm : CoverageModel) (pre p : String)
    (methods : List (String × List String)) :
    (initPathEntry cm pre p methods).pathRegexList =
      if p = "/{proxy+}" then cm.pathRegexList
      else cm.pathRegexList ++ [(pathToRegex (pre ++ p), p)] := by
  unfold initPathEntry
  by_cases hp : p = "/{proxy+}"
  · rw [if_pos (by simpa using hp), if_pos hp]
  · rw [if_neg (by simpa using hp), if_neg hp]

theorem initPathEntry_proxy (cm : CoverageModel) (pre : String)
    (methods : List (String × List String)) :
    initPathEntry cm pre "/{proxy+}" methods = cm := by
  unfold initPathEntry
  rw [if_pos (by decide)]

theorem initializeCoverage_filter_proxy :
    ∀ (paths : List (String × List (String × List String))) (cm : CoverageModel) (pre : String),
      paths.foldl (fun cm pe => initPathEntry cm pre pe.1 pe.2) cm =
        (paths.filter (fun pe => pe.1 != "/{proxy+}")).foldl
          (fun cm pe => initPathEntry cm pre pe.1 pe.2) cm := by
  intro paths
  induction paths with
  | nil => intro cm pre; rfl
  | cons pe rest ih =>
    intro cm pre
    by_cases hp : pe.1 = "/{proxy+}"
    · rw [List.foldl_cons, List.filter_cons_of_neg (by simpa using hp)]
      have hskip : initPathEntry cm pre pe.1 pe.2 = cm := by
        rw [hp, initPathEntry_proxy]
      rw [hskip]
      exact ih cm pre
    · rw [List.foldl_cons, List.filter_cons_of_pos (by simpa using hp), List.foldl_cons]
      exact ih _ pre

theorem initializeCoverage_no_proxy_entry :
    ∀ (paths : List (String × List (String × List String))) (cm : CoverageModel) (pre : String),
      (∀ e ∈ cm.pathRegexList, e.2 ≠ "/{proxy+}") →
      ∀ e ∈ (paths.foldl (fun cm pe => initPathEntry cm pre pe.1 pe.2) cm).pathRegexList,
        e.2 ≠ "/{proxy+}" := by
  intro paths
  induction paths with
  | nil => intro cm pre h; exact h
  | cons pe rest ih =>
    intro cm pre h
    rw [List.foldl_cons]
    apply ih
    intro e he
    rw [initPathEntry_pathRegexList] at he
    by_cases hp : pe.1 = "/{proxy+}"
    · rw [if_pos hp] at he
      exact h e he
    · rw [if_neg hp] at he
      rcases List.mem_append.mp he with h1 | h1
      · exact h e h1
      · have h2 : e = (pathToRegex (pre ++ pe.1), pe.1) := by simpa using h1
        rw [h2]
        exact hp

theorem matchPath_mem {cm : CoverageModel} {up p : String} (h : matchPath cm up = some p) :
    ∃ e ∈ cm.pathRegexList, e.2 = p := by
  unfold matchPath at h
  rw [Option.map_eq_some'] at h
  obtain ⟨e, he, hep⟩ := h
  exact ⟨e, List.mem_of_find?_eq_some he, hep⟩

theorem initPathEntry_coverage_proxy (cm : CoverageModel) (pre p : String)
    (methods : List (String × List String))
    (h : getEntry cm.coverage "/{proxy+}" = none) :
    getEntry (initPathEntry cm pre p methods).coverage "/{proxy+}" = none := by
  unfold initPathEntry
  by_cases hp : p = "/{proxy+}"
  · rw [if_pos (by simpa using hp)]
    exact h
  · rw [if_neg (by simpa using hp)]
    have hne : "/{proxy+}" ≠ p := fun hh => hp hh.symm
    dsimp only
    split
    · rw [getEntry_setEntry_ne _ _ _ _ hne, getEntry_setEntry_ne _ _ _ _ hne]
      exact h
    · rw [getEntry_setEntry_ne _ _ _ _ hne]
      exact h

theorem initializeCoverage_coverage_proxy :
    ∀ (paths : List (String × List (String × List String))) (cm : CoverageModel) (pre : String),
      getEntry cm.coverage "/{proxy+}" = none →
      getEntry ((paths.foldl (fun cm pe => initPathEntry cm pre pe.1 pe.2) cm)).coverage
        "/{proxy+}" = none := by
  intro paths
  induction paths with
  | nil => intro cm pre h; exact h
  | cons pe rest ih =>
    intro cm pre h
    rw [List.foldl_cons]
    exact ih _ pre (initPathEntry_coverage_proxy cm pre pe.1 pe.2 h)

theorem rawCoverageRecords_path_mem {cm : CoverageModel} {rec : CoverageRecord}
    (h : rec ∈ rawCoverageRecords cm) : rec.path ∈ cm.coverage.map (·.1) := by
  unfold rawCoverageRecords at h
  rw [List.mem_flatMap] at h
  obtain ⟨pe, hpe, hrec⟩ := h
  rw [List.mem_flatMap] at hrec
  obtain ⟨me, hme, hrec⟩ := hrec
  rw [List.mem_map] at hrec
  obtain ⟨se, hse, hrec⟩ := hrec
  rw [← hrec]
  exact List.mem_map_of_mem _ hpe

/-- C8: the reserved catch-all declared path `/{proxy+}` is skipped entirely
by registration: registering a document has the same effect as registering it
with all `/{proxy+}` entries removed; it contributes no compiled matcher
entry (so matching can never resolve to it) and no ledger entry (so it never
appears among the report records). -/
theorem C8_proxy_skipped (cm : CoverageModel) (spec : OpenApiSpec) (pre : String)
    (h1 : ∀ e ∈ cm.pathRegexList, e.2 ≠ "/{proxy+}")
    (h2 : getEntry cm.coverage "/{proxy+}" = none) :
    initializeCoverage cm spec pre =
      initializeCoverage cm ⟨spec.paths.filter (fun pe => pe.1 != "/{proxy+}")⟩ pre ∧
    (∀ e ∈ (initializeCoverage cm spec pre).pathRegexList, e.2 ≠ "/{proxy+}") ∧
    (∀ up, matchPath (initializeCoverage cm spec pre) up ≠ some "/{proxy+}") ∧
    getEntry (initializeCoverage cm spec pre).coverage "/{proxy+}" = none ∧
    (∀ rec ∈ generateCoverageRecords (initializeCoverage cm spec pre),
      rec.path ≠ "/{proxy+}") := by
  have hentries : ∀ e ∈ (initializeCoverage cm spec pre).pathRegexList, e.2 ≠ "/{proxy+}" :=
    initializeCoverage_no_proxy_entry spec.paths cm pre h1
  have hcov : getEntry (initializeCoverage cm spec pre).coverage "/{proxy+}" = none :=
    initializeCoverage_coverage_proxy spec.paths cm pre h2
  refine ⟨initializeCoverage_filter_proxy spec.paths cm pre, hentries, ?_, hcov, ?_⟩
  · intro up hmatch
    obtain ⟨e, he, hep⟩ := matchPath_mem hmatch
    exact hentries e he hep
  · intro rec hrec
    rw [generateCoverageRecords, List.mem_mergeSort] at hrec
    have hmem := rawCoverageRecords_path_mem hrec
    rw [List.mem_map] at hmem
    obtain ⟨pe, hpe, hpath⟩ := hmem
    intro hp
    rw [getEntry_eq_none_iff] at hcov
    exact hcov pe hpe (by rw [hpath, hp])

/-- Witness for C8: a document declaring the catch-all registers exactly like
the same document without it. -/
theorem C8_proxy_skipped_witness :
    initializeCoverage emptyModel specProxy "" =
      initializeCoverage emptyModel ⟨specProxy.paths.filter (fun pe => pe.1 != "/{proxy+}")⟩ "" :=
  (C8_proxy_skipped emptyModel specProxy "" (by intro e he; simp [emptyModel] at he)
    (by decide)).1

/-- C5: normalization of an observed call — when a (JS-truthy) base URL is
present it is concatenated with the request URL before parsing, the combined
string is parsed as an absolute URL and only its path component is kept
(query string and fragment discarded); the method is lower-cased and the
numeric status converted to its string form for the counter lookup.  In
particular, baseURL `https://api.example.com` with url `/v1/items` normalizes
to `/v1/items`. -/
theorem C5_normalization (u b : String) (hb : b ≠ "") :
    normalizePath (some u) (some b) = parseUrlPathname (b ++ u) ∧
    normalizePath (some "/v1/items") (some "https://api.example.com") = some "/v1/items" ∧
    normalizePath (some "/v1/items?page=2#top") (some "https://api.example.com") =
      some "/v1/items" ∧
    (∃ cm', handleResponse cmV1 respV1 = some cm' ∧
      getCount cm' "/v1/items" "get" "200" = some 1 ∧
      jsToLowerCase "GET" = "get" ∧ toString (200 : Nat) = "200") := by
  have hbu : b ++ u ≠ "" := by
    intro h
    have hd := congrArg String.data h
    rw [String.data_append] at hd
    exact hb (String.ext (List.append_eq_nil.mp hd).1)
  refine ⟨?_, by decide, by decide,
    ⟨recordHit cmV1 "/v1/items" "get" "200", by decide, by decide, by decide, by decide⟩⟩
  unfold normalizePath
  dsimp only [jsTemplateStr]
  rw [if_neg (by simpa using hb)]
  dsimp only
  rw [if_neg (by simpa using hbu)]

/-- Witness for C5 at the spec's own example inputs. -/
theorem C5_normalization_witness :
    normalizePath (some "/v1/items") (some "https://api.example.com") =
      parseUrlPathname ("https://api.example.com" ++ "/v1/items") :=
  (C5_normalization "/v1/items" "https://api.example.com" (by decide)).1

/-! Lemmas for contract registration: counters are only created, with value
0, and existing counter values are never changed. -/

theorem getCount_eq_getCountPC (cm : CoverageModel) (p m s : String) :
    getCount cm p m s =
      match getEntry cm.coverage p with
      | none => none
      | some pc => getCountPC pc m s := rfl

theorem getEntry_initStatus (resp : List (String × Nat)) (st s : String) :
    getEntry (initStatus resp st) s = getEntry resp s ∨
      (getEntry resp s = none ∧ getEntry (initStatus resp st) s = some 0) := by
  unfold initStatus
  by_cases hs : s = st
  · subst hs
    cases ho : getEntry resp s with
    | none =>
      right
      refine ⟨rfl, ?_⟩
      rw [if_pos (by simp [ho]), getEntry_setEntry_self]
    | some c =>
      left
      by_cases hc : c = 0
      · subst hc
        rw [if_pos (by simp), getEntry_setEntry_self]
      · rw [if_neg (by simp [hc])]
        exact ho
  · left
    split
    · exact getEntry_setEntry_ne resp st s 0 hs
    · rfl

theorem getEntry_initStatus_foldl (sts : List String) :
    ∀ (resp : List (String × Nat)) (s : String),
      getEntry (sts.foldl initStatus resp) s = getEntry resp s ∨
        (getEntry resp s = none ∧ getEntry (sts.foldl initStatus resp) s = some 0) := by
  induction sts with
  | nil => intro resp s; left; rfl
  | cons st rest ih =>
    intro resp s
    rw [List.foldl_cons]
    rcases ih (initStatus resp st) s with h | ⟨h1, h2⟩
    · rcases getEntry_initStatus resp st s with h0 | ⟨h01, h02⟩
      · left; rw [h, h0]
      · right; exact ⟨h01, by rw [h, h02]⟩
    · rcases getEntry_initStatus resp st s with h0 | ⟨h01, h02⟩
      · right
        refine ⟨by rw [← h0]; exact h1, h2⟩
      · right; exact ⟨h01, h2⟩

theorem getEntry_initStatus_foldl_mem (sts : List String) :
    ∀ (resp : List (String × Nat)) (s : String), s ∈ sts →
      (getEntry resp s = none ∨ getEntry resp s = some 0) →
      getEntry (sts.foldl initStatus resp) s = some 0 := by
  induction sts with
  | nil => intro resp s h; exact absurd h (List.not_mem_nil s)
  | cons st rest ih =>
    intro resp s hmem h0
    rw [List.foldl_cons]
    by_cases hs : s ∈ rest
    · apply ih _ _ hs
      rcases getEntry_initStatus resp st s with h | ⟨h1, h2⟩
      · rw [h]; exact h0
      · right; exact h2
    · have hst : s = st := by
        rcases List.mem_cons.mp hmem with h | h
        · exact h
        · exact absurd h hs
      subst hst
      have hzero : getEntry (initStatus resp s) s = some 0 := by
        unfold initStatus
        rcases h0 with h | h
        · rw [if_pos (by simp [h]), getEntry_setEntry_self]
        · rw [if_pos (by simp [h]), getEntry_setEntry_self]
      rcases getEntry_initStatus_foldl rest (initStatus resp s) s with h | ⟨h1, h2⟩
      · rw [h, hzero]
      · rw [h1] at hzero
        exact absurd hzero (by simp)

theorem initMethod_getEntry_ne (pc : List (String × MethodCoverage)) (mn : String)
    (sts : List String) (m : String) (h : m ≠ mn) :
    getEntry (initMethod pc mn sts) m = getEntry pc m := by
  unfold initMethod
  dsimp only
  rw [getEntry_setEntry_ne _ _ _ _ h]
  split
  · exact getEntry_setEntry_ne pc mn m _ h
  · rfl

theorem initMethod_getEntry_self (pc : List (String × MethodCoverage)) (mn : String)
    (sts : List String) :
    ∃ resp0, getEntry (initMethod pc mn sts) mn = some ⟨sts.foldl initStatus resp0⟩ ∧
      ((getEntry pc mn = none ∧ resp0 = []) ∨
        (∃ mc, getEntry pc mn = some mc ∧ resp0 = mc.responses)) := by
  unfold initMethod
  dsimp only
  cases ho : getEntry pc mn with
  | none =>
    refine ⟨[], ?_, Or.inl ⟨rfl, rfl⟩⟩
    rw [if_pos (by rfl)]
    simp [getEntry_setEntry_self]
  | some mc =>
    refine ⟨mc.responses, ?_, Or.inr ⟨mc, rfl, rfl⟩⟩
    rw [if_neg (by simp)]
    simp [getEntry_setEntry_self, ho]

theorem getCountPC_initMethod (pc : List (String × MethodCoverage)) (mn : String)
    (sts : List String) (m s : String) :
    getCountPC (initMethod pc mn sts) m s = getCountPC pc m s ∨
      (getCountPC pc m s = none ∧ getCountPC (initMethod pc mn sts) m s = some 0) := by
  by_cases hm : m = mn
  · subst hm
    obtain ⟨resp0, hself, hcase⟩ := initMethod_getEntry_self pc m sts
    unfold getCountPC
    rw [hself]
    dsimp only
    rcases hcase with ⟨hnone, rrfl⟩ | ⟨mc, hsome, rrfl⟩
    · subst rrfl
      rw [hnone]
      rcases getEntry_initStatus_foldl sts [] s with h | ⟨h1, h2⟩
      · left; rw [h]; rfl
      · right; exact ⟨rfl, h2⟩
    · subst rrfl
      rw [hsome]
      exact getEntry_initStatus_foldl sts mc.responses s
  · unfold getCountPC
    rw [initMethod_getEntry_ne pc mn sts m hm]
    left; rfl

theorem getCountPC_initMethod_mem (pc : List (String × MethodCoverage)) (mn : String)
    (sts : List String) (s : String) (hs : s ∈ sts)
    (h0 : getCountPC pc mn s = none ∨ getCountPC pc mn s = some 0) :
    getCountPC (initMethod pc mn sts) mn s = some 0 := by
  obtain ⟨resp0, hself, hcase⟩ := initMethod_getEntry_self pc mn sts
  unfold getCountPC
  rw [hself]
  dsimp only
  apply getEntry_initStatus_foldl_mem sts resp0 s hs
  rcases hcase with ⟨hnone, rrfl⟩ | ⟨mc, hsome, rrfl⟩
  · subst rrfl; left; rfl
  · subst rrfl
    unfold getCountPC at h0
    rw [hsome] at h0
    exact h0

theorem getCountPC_initMethods_foldl (methods : List (String × List String)) :
    ∀ (pc : List (String × MethodCoverage)) (m s : String),
      getCountPC (methods.foldl (fun pc me => initMethod pc me.1 me.2) pc) m s
          = getCountPC pc m s ∨
        (getCountPC pc m s = none ∧
          getCountPC (methods.foldl (fun pc me => initMethod pc me.1 me.2) pc) m s = some 0) := by
  induction methods with
  | nil => intro pc m s; left; rfl
  | cons me rest ih =>
    intro pc m s
    rw [List.foldl_cons]
    rcases ih (initMethod pc me.1 me.2) m s with h | ⟨h1, h2⟩
    · rcases getCountPC_initMethod pc me.1 me.2 m s with h0 | ⟨h01, h02⟩
      · left; rw [h, h0]
      · right; exact ⟨h01, by rw [h, h02]⟩
    · rcases getCountPC_initMethod pc me.1 me.2 m s with h0 | ⟨h01, h02⟩
      · right; exact ⟨by rw [← h0]; exact h1, h2⟩
      · right; exact ⟨h01, h2⟩

theorem getCountPC_initMethods_foldl_mem (methods : List (String × List String)) :
    ∀ (pc : List (String × MethodCoverage)) (m s : String) (sts : List String),
      (m, sts) ∈ methods → s ∈ sts →
      (getCountPC pc m s = none ∨ getCountPC pc m s = some 0) →
      getCountPC (methods.foldl (fun pc me => initMethod pc me.1 me.2) pc) m s = some 0 := by
  induction methods with
  | nil => intro pc m s sts h; exact absurd h (List.not_mem_nil _)
  | cons me rest ih =>
    intro pc m s sts hmem hs h0
    rw [List.foldl_cons]
    have hkeep : getCountPC (initMethod pc me.1 me.2) m s = none ∨
        getCountPC (initMethod pc me.1 me.2) m s = some 0 := by
      rcases getCountPC_initMethod pc me.1 me.2 m s with h | ⟨h1, h2⟩
      · rw [h]; exact h0
      · right; exact h2
    rcases List.mem_cons.mp hmem with hh | hh
    · have hm : me.1 = m := by rw [← hh]
      have hsts : me.2 = sts := by rw [← hh]
      have hzero : getCountPC (initMethod pc me.1 me.2) m s = some 0 := by
        rw [hm]
        exact getCountPC_initMethod_mem pc m me.2 s (hsts ▸ hs) (hm ▸ h0)
      rcases getCountPC_initMethods_foldl rest (initMethod pc me.1 me.2) m s with h | ⟨h1, h2⟩
      · rw [h, hzero]
      · exact h2
    · exact ih _ m s sts hh hs hkeep

theorem initPathEntry_coverage_ne (cm : CoverageModel) (pre p : String)
    (methods : List (String × List String)) (q : String) (hq : q ≠ p) :
    getEntry (initPathEntry cm pre p methods).coverage q = getEntry cm.coverage q := by
  unfold initPathEntry
  by_cases hp : p = "/{proxy+}"
  · rw [if_pos (by simpa using hp)]
  · rw [if_neg (by simpa using hp)]
    dsimp only
    rw [getEntry_setEntry_ne _ _ _ _ hq]
    split
    · exact getEntry_setEntry_ne _ _ _ _ hq
    · rfl

theorem initPathEntry_coverage_self (cm : CoverageModel) (pre p : String)
    (methods : List (String × List String)) (hp : p ≠ "/{proxy+}") :
    ∃ pc0, getEntry (initPathEntry cm pre p methods).coverage p =
        some (methods.foldl (fun pc me => initMethod pc me.1 me.2) pc0) ∧
      ((getEntry cm.coverage p = none ∧ pc0 = []) ∨
        (∃ pcov, getEntry cm.coverage p = some pcov ∧ pc0 = pcov)) := by
  unfold initPathEntry
  rw [if_neg (by simpa using hp)]
  dsimp only
  cases ho : getEntry cm.coverage p with
  | none =>
    refine ⟨[], ?_, Or.inl ⟨rfl, rfl⟩⟩
    rw [if_pos (by rfl)]
    simp [getEntry_setEntry_self]
  | some pcov =>
    refine ⟨pcov, ?_, Or.inr ⟨pcov, rfl, rfl⟩⟩
    rw [if_neg (by simp)]
    simp [getEntry_setEntry_self, ho]

theorem getCount_initPathEntry (cm : CoverageModel) (pre q : String)
    (methods : List (String × List String)) (p m s : String) :
    getCount (initPathEntry cm pre q methods) p m s = getCount cm p m s ∨
      (getCount cm p m s = none ∧
        getCount (initPathEntry cm pre q methods) p m s = some 0) := by
  by_cases hq : q = "/{proxy+}"
  · left
    rw [hq, initPathEntry_proxy]
  · by_cases hpq : p = q
    · subst hpq
      obtain ⟨pc0, hself, hcase⟩ := initPathEntry_coverage_self cm pre p methods hq
      rw [getCount_eq_getCountPC, getCount_eq_getCountPC, hself]
      dsimp only
      rcases hcase with ⟨hnone, rrfl⟩ | ⟨pcov, hsome, rrfl⟩
      · subst rrfl
        rw [hnone]
        rcases getCountPC_initMethods_foldl methods [] m s with h | ⟨h1, h2⟩
        · left; rw [h]; rfl
        · right; exact ⟨rfl, h2⟩
      · subst rrfl
        rw [hsome]
        exact getCountPC_initMethods_foldl methods pc0 m s
    · left
      rw [getCount_eq_getCountPC, getCount_eq_getCountPC,
        initPathEntry_coverage_ne cm pre q methods p hpq]

theorem getCount_initPathEntry_mem (cm : CoverageModel) (pre p : String)
    (methods : List (String × List String)) (m s : String) (sts : List String)
    (hp : p ≠ "/{proxy+}") (hm : (m, sts) ∈ methods) (hs : s ∈ sts)
    (h0 : getCount cm p m s = none ∨ getCount cm p m s = some 0) :
    getCount (initPathEntry cm pre p methods) p m s = some 0 := by
  obtain ⟨pc0, hself, hcase⟩ := initPathEntry_coverage_self cm pre p methods hp
  rw [getCount_eq_getCountPC, hself]
  dsimp only
  apply getCountPC_initMethods_foldl_mem methods pc0 m s sts hm hs
  rcases hcase with ⟨hnone, rrfl⟩ | ⟨pcov, hsome, rrfl⟩
  · subst rrfl; left; rfl
  · subst rrfl
    rw [getCount_eq_getCountPC, hsome] at h0
    exact h0

theorem getCount_initializeCoverage_paths :
    ∀ (paths : List (String × List (String × List String))) (cm : CoverageModel)
      (pre p m s : String),
      getCount (paths.foldl (fun cm pe => initPathEntry cm pre pe.1 pe.2) cm) p m s
          = getCount cm p m s ∨
        (getCount cm p m s = none ∧
          getCount (paths.foldl (fun cm pe => initPathEntry cm pre pe.1 pe.2) cm) p m s
            = some 0) := by
  intro paths
  induction paths with
  | nil => intro cm pre p m s; left; rfl
  | cons pe rest ih =>
    intro cm pre p m s
    rw [List.foldl_cons]
    rcases ih (initPathEntry cm pre pe.1 pe.2) pre p m s with h | ⟨h1, h2⟩
    · rcases getCount_initPathEntry cm pre pe.1 pe.2 p m s with h0 | ⟨h01, h02⟩
      · left; rw [h, h0]
      · right; exact ⟨h01, by rw [h, h02]⟩
    · rcases getCount_initPathEntry cm pre pe.1 pe.2 p m s with h0 | ⟨h01, h02⟩
      · right; exact ⟨by rw [← h0]; exact h1, h2⟩
      · right; exact ⟨h01, h2⟩

theorem getCount_initializeCoverage (cm : CoverageModel) (spec : OpenApiSpec)
    (pre p m s : String) :
    getCount (initializeCoverage cm spec pre) p m s = getCount cm p m s ∨
      (getCount cm p m s = none ∧
        getCount (initializeCoverage cm spec pre) p m s = some 0) :=
  getCount_initializeCoverage_paths spec.paths cm pre p m s

theorem getCount_init_paths_mem :
    ∀ (paths : List (String × List (String × List String))) (cm : CoverageModel)
      (pre p m s : String) (methods : List (String × List String)) (sts : List String),
      (p, methods) ∈ paths → (m, sts) ∈ methods → s ∈ sts → p ≠ "/{proxy+}" →
      (getCount cm p m s = none ∨ getCount cm p m s = some 0) →
      getCount (paths.foldl (fun cm pe => initPathEntry cm pre pe.1 pe.2) cm) p m s
        = some 0 := by
  intro paths
  induction paths with
  | nil => intro cm pre p m s methods sts h; exact absurd h (List.not_mem_nil _)
  | cons pe rest ih =>
    intro cm pre p m s methods sts hmem hm hs hp h0
    rw [List.foldl_cons]
    have hkeep : getCount (initPathEntry cm pre pe.1 pe.2) p m s = none ∨
        getCount (initPathEntry cm pre pe.1 pe.2) p m s = some 0 := by
      rcases getCount_initPathEntry cm pre pe.1 pe.2 p m s with h | ⟨h1, h2⟩
      · rw [h]; exact h0
      · right; exact h2
    rcases List.mem_cons.mp hmem with hh | hh
    · have hzero : getCount (initPathEntry cm pre pe.1 pe.2) p m s = some 0 := by
        rw [← hh]
        exact getCount_initPathEntry_mem cm pre p methods m s sts hp hm hs h0
      rcases getCount_initializeCoverage_paths rest (initPathEntry cm pre pe.1 pe.2)
          pre p m s with h | ⟨h1, h2⟩
      · rw [h, hzero]
      · exact h2
    · exact ih _ pre p m s methods sts hh hm hs hp hkeep

theorem getCount_initializeCoverage_declared (cm : CoverageModel) (spec : OpenApiSpec)
    (pre p m s : String) (hp : p ≠ "/{proxy+}") (hd : declaredTriple spec p m s)
    (h0 : getCount cm p m s = none ∨ getCount cm p m s = some 0) :
    getCount (initializeCoverage cm spec pre) p m s = some 0 := by
  obtain ⟨methods, hmem, sts, hsts, hs⟩ := hd
  exact getCount_init_paths_mem spec.paths cm pre p m s methods sts hmem hsts hs hp h0

/-! Monotonicity of counters over engine operations, and preservation of key
uniqueness. -/

theorem getCount_recordHit_mono {cm : CoverageModel} {p0 m0 s0 p m s : String} {c : Nat}
    (h : getCount cm p m s = some c) :
    ∃ c', getCount (recordHit cm p0 m0 s0) p m s = some c' ∧ c ≤ c' := by
  by_cases he : p = p0 ∧ m = m0 ∧ s = s0
  · obtain ⟨rfl, rfl, rfl⟩ := he
    exact ⟨c + 1, getCount_recordHit_self h, Nat.le_succ c⟩
  · exact ⟨c, by rw [getCount_recordHit_other he]; exact h, Nat.le_refl c⟩

theorem getCount_handleResponse_mono {cm cm' : CoverageModel} {r : AxiosResponse}
    {p m s : String} {c : Nat} (hr : handleResponse cm r = some cm')
    (h : getCount cm p m s = some c) :
    ∃ c', getCount cm' p m s = some c' ∧ c ≤ c' := by
  unfold handleResponse at hr
  cases hnp : normalizePath r.url r.baseURL with
  | none => rw [hnp] at hr; simp at hr
  | some np =>
    simp only [hnp] at hr
    cases hmp : matchPath cm np with
    | none =>
      simp only [hmp, Option.some.injEq] at hr
      exact ⟨c, by rw [← hr]; exact h, Nat.le_refl c⟩
    | some mp =>
      simp only [hmp] at hr
      by_cases he : mp = ""
      · rw [if_pos (by simpa using he)] at hr
        simp only [Option.some.injEq] at hr
        exact ⟨c, by rw [← hr]; exact h, Nat.le_refl c⟩
      · rw [if_neg (by simpa using he)] at hr
        simp only [Option.some.injEq] at hr
        rw [← hr]
        exact getCount_recordHit_mono h

theorem getCount_applyOp_mono (cm : CoverageModel) (op : EngineOp) (p m s : String)
    (c : Nat) (h : getCount cm p m s = some c) :
    ∃ c', getCount (applyOp cm op) p m s = some c' ∧ c ≤ c' := by
  cases op with
  | register spec pre =>
    rcases getCount_initializeCoverage cm spec pre p m s with h0 | ⟨h1, h2⟩
    · exact ⟨c, by unfold applyOp; rw [h0]; exact h, Nat.le_refl c⟩
    · rw [h1] at h
      exact absurd h (by simp)
  | observe r =>
    unfold applyOp
    dsimp only
    cases hr : handleResponse cm r with
    | none => exact ⟨c, h, Nat.le_refl c⟩
    | some cm2 => exact getCount_handleResponse_mono hr h
  | observeFailure e =>
    unfold applyOp handleFailedResponse
    dsimp only
    cases he : e.response with
    | none => exact ⟨c, h, Nat.le_refl c⟩
    | some r =>
      dsimp only
      cases hr : handleResponse cm r with
      | none => exact ⟨c, h, Nat.le_refl c⟩
      | some cm2 => exact getCount_handleResponse_mono hr h

theorem getCount_applyOps_mono (ops : List EngineOp) :
    ∀ (cm : CoverageModel) (p m s : String) (c : Nat), getCount cm p m s = some c →
      ∃ c', getCount (applyOps cm ops) p m s = some c' ∧ c ≤ c' := by
  induction ops with
  | nil => intro cm p m s c h; exact ⟨c, h, Nat.le_refl c⟩
  | cons op rest ih =>
    intro cm p m s c h
    obtain ⟨c1, h1, hle1⟩ := getCount_applyOp_mono cm op p m s c h
    obtain ⟨c2, h2, hle2⟩ := ih (applyOp cm op) p m s c1 h1
    exact ⟨c2, h2, Nat.le_trans hle1 hle2⟩

theorem getEntry_mem {α : Type} {m : List (String × α)} {k : String} {v : α}
    (h : getEntry m k = some v) : (k, v) ∈ m := by
  induction m with
  | nil => simp [getEntry] at h
  | cons e rest ih =>
    simp only [getEntry] at h
    by_cases he : e.1 = k
    · rw [if_pos (by simpa using he)] at h
      have hv : e.2 = v := by simpa using h
      rw [← he, ← hv]
      exact List.mem_cons_self _ _
    · rw [if_neg (by simpa using he)] at h
      exact List.mem_cons_of_mem _ (ih h)

theorem respNodup_initStatus (resp : List (String × Nat)) (st : String)
    (h : respNodup resp) : respNodup (initStatus resp st) := by
  unfold initStatus
  split
  · exact nodup_keys_setEntry _ _ _ h
  · exact h

theorem respNodup_initStatus_foldl (sts : List String) :
    ∀ resp, respNodup resp → respNodup (sts.foldl initStatus resp) := by
  induction sts with
  | nil => intro resp h; exact h
  | cons st rest ih =>
    intro resp h
    rw [List.foldl_cons]
    exact ih _ (respNodup_initStatus _ _ h)

theorem pcNodup_initMethod (pc : List (String × MethodCoverage)) (mn : String)
    (sts : List String) (h : pcNodup pc) : pcNodup (initMethod pc mn sts) := by
  obtain ⟨h1, h2⟩ := h
  have hpc1 : pcNodup (if (getEntry pc mn).isNone then setEntry pc mn ⟨[]⟩ else pc) := by
    split
    · refine ⟨nodup_keys_setEntry _ _ _ h1, ?_⟩
      intro me hme
      rcases mem_setEntry _ hme with h3 | h3
      · rw [h3]; exact List.nodup_nil
      · exact h2 me h3
    · exact ⟨h1, h2⟩
  unfold initMethod
  dsimp only
  obtain ⟨hp1, hp2⟩ := hpc1
  refine ⟨nodup_keys_setEntry _ _ _ hp1, ?_⟩
  intro me hme
  rcases mem_setEntry _ hme with h3 | h3
  · rw [h3]
    dsimp only
    apply respNodup_initStatus_foldl
    cases hg : getEntry (if (getEntry pc mn).isNone then setEntry pc mn ⟨[]⟩ else pc) mn with
    | none => exact List.nodup_nil
    | some mc => exact hp2 _ (getEntry_mem hg)
  · exact hp2 me h3

theorem pcNodup_initMethods_foldl (methods : List (String × List String)) :
    ∀ pc, pcNodup pc → pcNodup (methods.foldl (fun pc me => initMethod pc me.1 me.2) pc) := by
  induction methods with
  | nil => intro pc h; exact h
  | cons me rest ih =>
    intro pc h
    rw [List.foldl_cons]
    exact ih _ (pcNodup_initMethod _ _ _ h)

theorem covNodup_step (cov : List (String × List (String × MethodCoverage)))
    (p : String) (methods : List (String × List String)) (h : covNodup cov) :
    covNodup (setEntry cov p
      (methods.foldl (fun pc me => initMethod pc me.1 me.2) ((getEntry cov p).getD []))) := by
  obtain ⟨h1, h2⟩ := h
  refine ⟨nodup_keys_setEntry _ _ _ h1, ?_⟩
  intro pe hpe
  rcases mem_setEntry _ hpe with h3 | h3
  · rw [h3]
    dsimp only
    apply pcNodup_initMethods_foldl
    cases hg : getEntry cov p with
    | none => exact ⟨List.nodup_nil, fun me hme => absurd hme (List.not_mem_nil me)⟩
    | some pcov => exact h2 _ (getEntry_mem hg)
  · exact h2 pe h3

theorem covNodup_initPathEntry (cm : CoverageModel) (pre p : String)
    (methods : List (String × List String)) (h : covNodup cm.coverage) :
    covNodup (initPathEntry cm pre p methods).coverage := by
  unfold initPathEntry
  by_cases hp : p = "/{proxy+}"
  · rw [if_pos (by simpa using hp)]
    exact h
  · rw [if_neg (by simpa using hp)]
    dsimp only
    split
    · apply covNodup_step _ p methods
      obtain ⟨h1, h2⟩ := h
      refine ⟨nodup_keys_setEntry _ _ _ h1, ?_⟩
      intro pe hpe
      rcases mem_setEntry _ hpe with h3 | h3
      · rw [h3]
        exact ⟨List.nodup_nil, fun me hme => absurd hme (List.not_mem_nil me)⟩
      · exact h2 pe h3
    · exact covNodup_step _ p methods h

theorem keysNodup_init_paths :
    ∀ (paths : List (String × List (String × List String))) (cm : CoverageModel)
      (pre : String), keysNodup cm →
      keysNodup (paths.foldl (fun cm pe => initPathEntry cm pre pe.1 pe.2) cm) := by
  intro paths
  induction paths with
  | nil => intro cm pre h; exact h
  | cons pe rest ih =>
    intro cm pre h
    rw [List.foldl_cons]
    exact ih _ pre (covNodup_initPathEntry cm pre pe.1 pe.2 h)

theorem covNodup_recordHit (cm : CoverageModel) (p m s : String) (h : covNodup cm.coverage) :
    covNodup (recordHit cm p m s).coverage := by
  unfold recordHit
  cases hp : getEntry cm.coverage p with
  | none => exact h
  | some pc =>
    dsimp only
    cases hm : getEntry pc m with
    | none => exact h
    | some mc =>
      dsimp only
      cases hs : getEntry mc.responses s with
      | none => exact h
      | some c =>
        dsimp only
        obtain ⟨h1, h2⟩ := h
        refine ⟨nodup_keys_setEntry _ _ _ h1, ?_⟩
        intro pe hpe
        rcases mem_setEntry _ hpe with h3 | h3
        · rw [h3]
          dsimp only
          have hpc := h2 _ (getEntry_mem hp)
          refine ⟨nodup_keys_setEntry _ _ _ hpc.1, ?_⟩
          intro me hme
          rcases mem_setEntry _ hme with h4 | h4
          · rw [h4]
            dsimp only
            exact nodup_keys_setEntry _ _ _ (hpc.2 _ (getEntry_mem hm))
          · exact hpc.2 me h4
        · exact h2 pe h3

theorem keysNodup_handleResponse {cm cm' : CoverageModel} {r : AxiosResponse}
    (hr : handleResponse cm r = some cm') (h : keysNodup cm) : keysNodup cm' := by
  unfold handleResponse at hr
  cases hnp : normalizePath r.url r.baseURL with
  | none => rw [hnp] at hr; simp at hr
  | some np =>
    simp only [hnp] at hr
    cases hmp : matchPath cm np with
    | none =>
      simp only [hmp, Option.some.injEq] at hr
      rw [← hr]
      exact h
    | some mp =>
      simp only [hmp] at hr
      by_cases he : mp = ""
      · rw [if_pos (by simpa using he)] at hr
        simp only [Option.some.injEq] at hr
        rw [← hr]
        exact h
      · rw [if_neg (by simpa using he)] at hr
        simp only [Option.some.injEq] at hr
        rw [← hr]
        exact covNodup_recordHit cm mp _ _ h

theorem keysNodup_applyOp (cm : CoverageModel) (op : EngineOp) (h : keysNodup cm) :
    keysNodup (applyOp cm op) := by
  cases op with
  | register spec pre => exact keysNodup_init_paths spec.paths cm pre h
  | observe r =>
    unfold applyOp
    dsimp only
    cases hr : handleResponse cm r with
    | none => exact h
    | some cm2 => exact keysNodup_handleResponse hr h
  | observeFailure e =>
    unfold applyOp handleFailedResponse
    dsimp only
    cases he : e.response with
    | none => exact h
    | some r =>
      dsimp only
      cases hr : handleResponse cm r with
      | none => exact h
      | some cm2 => exact keysNodup_handleResponse hr h

theorem keysNodup_applyOps (ops : List EngineOp) :
    ∀ cm : CoverageModel, keysNodup cm → keysNodup (applyOps cm ops) := by
  induction ops with
  | nil => intro cm h; exact h
  | cons op rest ih =>
    intro cm h
    exact ih (applyOp cm op) (keysNodup_applyOp cm op h)

/-- C4: invariant over every sequence of contract registrations and recorded
calls — key uniqueness of the ledger is preserved (each declared triple has
exactly one counter), every existing counter is monotonically non-decreasing,
a registration gives every newly declared non-catch-all triple a counter
initialized to 0, and re-registering a path merges: a registration never
changes the value of any existing counter (in particular it never resets
one). -/
theorem C4_ledger_invariant (cm : CoverageModel) (ops : List EngineOp) :
    (keysNodup cm → keysNodup (applyOps cm ops)) ∧
    (∀ p m s c, getCount cm p m s = some c →
      ∃ c', getCount (applyOps cm ops) p m s = some c' ∧ c ≤ c') ∧
    (∀ spec pre p m s, getCount cm p m s = none → declaredTriple spec p m s →
      p ≠ "/{proxy+}" → getCount (initializeCoverage cm spec pre) p m s = some 0) ∧
    (∀ spec pre p m s c, getCount cm p m s = some c →
      getCount (initializeCoverage cm spec pre) p m s = some c) := by
  refine ⟨keysNodup_applyOps ops cm, ?_, ?_, ?_⟩
  · intro p m s c h
    exact getCount_applyOps_mono ops cm p m s c h
  · intro spec pre p m s h0 hd hp
    exact getCount_initializeCoverage_declared cm spec pre p m s hp hd (Or.inl h0)
  · intro spec pre p m s c h
    rcases getCount_initializeCoverage cm spec pre p m s with h1 | ⟨h1, h2⟩
    · rw [h1]
      exact h
    · rw [h1] at h
      exact absurd h (by simp)

/-- Witness for C4: key uniqueness and monotonicity after an observed call,
zero-initialization of a newly declared triple, and preservation of an
existing (even non-zero) counter across a merging re-registration. -/
theorem C4_ledger_invariant_witness :
    keysNodup (applyOps cmItems [EngineOp.observe respItems200]) ∧
    (∃ c', getCount (applyOps cmItems [EngineOp.observe respItems200]) "/items" "get" "200"
        = some c' ∧ 0 ≤ c') ∧
    getCount (initializeCoverage cmItems ⟨[("/new", [("post", ["201"])])]⟩ "")
      "/new" "post" "201" = some 0 ∧
    getCount (initializeCoverage (recordHit cmItems "/items" "get" "200")
        ⟨[("/items", [("get", ["200"])])]⟩ "") "/items" "get" "200" = some 1 := by
  obtain ⟨h1, h2, h3, _⟩ := C4_ledger_invariant cmItems [EngineOp.observe respItems200]
  obtain ⟨_, _, _, h4⟩ := C4_ledger_invariant (recordHit cmItems "/items" "get" "200") []
  exact ⟨h1 (by decide), h2 "/items" "get" "200" 0 (by decide),
    h3 ⟨[("/new", [("post", ["201"])])]⟩ "" "/new" "post" "201" (by decide)
      ⟨[("post", ["201"])], by decide, ["201"], by decide, by decide⟩ (by decide),
    h4 ⟨[("/items", [("get", ["200"])])]⟩ "" "/items" "get" "200" 1 (by decide)⟩

/-! Lemmas for the report comparator and sort. -/

theorem recordLE_iff (a b : CoverageRecord) :
    recordLE a b = true ↔
      (a.path < b.path ∨ (a.path = b.path ∧
        (a.method < b.method ∨ (a.method = b.method ∧ a.status ≤ b.status)))) := by
  unfold recordLE
  by_cases hp : a.path = b.path
  · by_cases hm : a.method = b.method
    · simp [hp, hm, lt_irrefl]
    · simp [hp, hm, lt_irrefl]
  · simp [hp]

theorem recordLE_trans (a b c : CoverageRecord) (h1 : recordLE a b = true)
    (h2 : recordLE b c = true) : recordLE a c = true := by
  rw [recordLE_iff] at h1 h2 ⊢
  rcases h1 with h1 | ⟨e1, h1⟩
  · rcases h2 with h2 | ⟨e2, h2⟩
    · exact Or.inl (lt_trans h1 h2)
    · exact Or.inl (by rw [← e2]; exact h1)
  · rcases h2 with h2 | ⟨e2, h2⟩
    · exact Or.inl (by rw [e1]; exact h2)
    · refine Or.inr ⟨e1.trans e2, ?_⟩
      rcases h1 with h1 | ⟨f1, h1⟩
      · rcases h2 with h2 | ⟨f2, h2⟩
        · exact Or.inl (lt_trans h1 h2)
        · exact Or.inl (by rw [← f2]; exact h1)
      · rcases h2 with h2 | ⟨f2, h2⟩
        · exact Or.inl (by rw [f1]; exact h2)
        · exact Or.inr ⟨f1.trans f2, le_trans h1 h2⟩

theorem recordLE_total (a b : CoverageRecord) : (recordLE a b || recordLE b a) = true := by
  rw [Bool.or_eq_true, recordLE_iff, recordLE_iff]
  rcases lt_trichotomy a.path b.path with h | h | h
  · exact Or.inl (Or.inl h)
  · rcases lt_trichotomy a.method b.method with h2 | h2 | h2
    · exact Or.inl (Or.inr ⟨h, Or.inl h2⟩)
    · rcases le_total a.status b.status with h3 | h3
      · exact Or.inl (Or.inr ⟨h, Or.inr ⟨h2, h3⟩⟩)
      · exact Or.inr (Or.inr ⟨h.symm, Or.inr ⟨h2.symm, h3⟩⟩)
    · exact Or.inr (Or.inr ⟨h.symm, Or.inl h2⟩)
  · exact Or.inr (Or.inl h)

theorem recordKey_eq_of_recordLE (a b : CoverageRecord) (h1 : recordLE a b = true)
    (h2 : recordLE b a = true) : recordKey a = recordKey b := by
  rw [recordLE_iff] at h1 h2
  unfold recordKey
  rcases h1 with h1 | ⟨e1, h1⟩
  · rcases h2 with h2 | ⟨e2, h2⟩
    · exact absurd (lt_trans h1 h2) (lt_irrefl _)
    · exact absurd h1 (by rw [e2]; exact lt_irrefl _)
  · rcases h2 with h2 | ⟨e2, h2⟩
    · exact absurd h2 (by rw [e1]; exact lt_irrefl _)
    · rcases h1 with h1 | ⟨f1, h1⟩
      · rcases h2 with h2 | ⟨f2, h2⟩
        · exact absurd (lt_trans h1 h2) (lt_irrefl _)
        · exact absurd h1 (by rw [f2]; exact lt_irrefl _)
      · rcases h2 with h2 | ⟨f2, h2⟩
        · exact absurd h2 (by rw [f1]; exact lt_irrefl _)
        · rw [e1, f1, le_antisymm h1 h2]

instance : IsAntisymm CoverageRecord recordLT :=
  ⟨fun a b hab hba => absurd (recordKey_eq_of_recordLE a b hab.1 hba.1) hab.2⟩

theorem generateCoverageRecords_sorted (cm : CoverageModel) :
    (generateCoverageRecords cm).Sorted (fun a b => recordLE a b = true) := by
  unfold generateCoverageRecords
  exact List.sorted_mergeSort (fun a b c h1 h2 => recordLE_trans a b c h1 h2)
    (fun a b => recordLE_total a b) (rawCoverageRecords cm)

theorem generateCoverageRecords_sorted_strict (cm : CoverageModel)
    (h : ((rawCoverageRecords cm).map recordKey).Nodup) :
    (generateCoverageRecords cm).Sorted recordLT := by
  have hperm : (generateCoverageRecords cm).Perm (rawCoverageRecords cm) :=
    List.mergeSort_perm _ _
  have hnd : ((generateCoverageRecords cm).map recordKey).Nodup :=
    ((hperm.map recordKey).nodup_iff).mpr h
  have hpw : (generateCoverageRecords cm).Pairwise
      (fun a b => recordKey a ≠ recordKey b) := List.pairwise_map.mp hnd
  exact ((generateCoverageRecords_sorted cm).and hpw :)

theorem generateCoverageRecords_unique {cm cm2 : CoverageModel}
    (h : ((rawCoverageRecords cm).map recordKey).Nodup)
    (hperm : (rawCoverageRecords cm).Perm (rawCoverageRecords cm2)) :
    generateCoverageRecords cm = generateCoverageRecords cm2 := by
  have h2 : ((rawCoverageRecords cm2).map recordKey).Nodup :=
    ((hperm.map recordKey).nodup_iff).mp h
  have hp : (generateCoverageRecords cm).Perm (generateCoverageRecords cm2) :=
    (List.mergeSort_perm _ _).trans (hperm.trans (List.mergeSort_perm _ _).symm)
  exact List.eq_of_perm_of_sorted hp (generateCoverageRecords_sorted_strict cm h)
    (generateCoverageRecords_sorted_strict cm2 h2)

/-- C7: the report record sequence is deterministically ordered for every
ledger state — sorted primarily by path, then method, then status
(lexicographically); the sorted output is a permutation of the enumerated
ledger entries, and any two states whose ledgers hold the same records (e.g.
the same contracts registered, or the same calls recorded, in any order)
produce the identical report sequence. -/
theorem C7_report_order (cm cm2 : CoverageModel) :
    (generateCoverageRecords cm).Sorted (fun a b => recordLE a b = true) ∧
    (generateCoverageRecords cm).Perm (rawCoverageRecords cm) ∧
    (((rawCoverageRecords cm).map recordKey).Nodup →
      (rawCoverageRecords cm).Perm (rawCoverageRecords cm2) →
      generateCoverageRecords cm = generateCoverageRecords cm2) :=
  ⟨generateCoverageRecords_sorted cm, List.mergeSort_perm _ _,
    fun h hperm => generateCoverageRecords_unique h hperm⟩

/-- Witness for C7: registering `/a` then `/b` and registering `/b` then `/a`
yield the identical sorted report. -/
theorem C7_report_order_witness :
    generateCoverageRecords cmOrder1 = generateCoverageRecords cmOrder2 :=
  (C7_report_order cmOrder1 cmOrder2).2.2 (by decide) (by decide)
